import Mathlib

/-!
Shallow embedding of the cy named-topic coordination layer (cy.c / cy.h) in Lean 4,
together with theorems settling the frozen claims about its specification.

Machine integers of the C source (uint64_t, uint16_t, etc.) are modelled as Nat;
wherever C overflow or truncation can actually occur it is made explicit with
percent 2 pow w. Signed times (cy_us_t, int64_t) are modelled as Int.
Platform hooks (prng, transport publish/subscribe results) are supplied as
explicit oracle parameters.
-/

set_option maxHeartbeats 2000000
set_option maxRecDepth 4000

-- ----------------------------------------  CONSTANTS (cy.h)  ----------------------------------------

def CY_TOPIC_NAME_MAX : Nat := 96

def CY_TOPIC_SUBJECT_COUNT : Nat := 6144

def CY_TOTAL_SUBJECT_COUNT : Nat := 8192

def CY_SUBJECT_ID_INVALID : Nat := 0xFFFF

def CY_NODE_ID_INVALID : Nat := 0xFFFF

-- ----------------------------------------  SMALL HELPERS (cy.c)  ----------------------------------------

/-- Fuel-driven floor of the base-2 logarithm; fuel at least x suffices because x is halved
on every step. Mirrors 63 - clzll on a nonzero uint64. -/
def log2_floor_aux : Nat → Nat → Nat
  | 0, _ => 0
  | fuel + 1, x => if x < 2 then 0 else log2_floor_aux fuel (x / 2) + 1

/-- Embedding of log2_floor from cy.c: returns -1 if the argument is zero to allow
linear comparison, else floor(log2 x). -/
def log2_floor (x : Nat) : Int :=
  if x = 0 then -1 else (log2_floor_aux x x : Int)

-- ----------------------------------------  TOPIC OPS (cy.c)  ----------------------------------------

/-- Embedding of is_pinned from cy.c: pinned topics have hash below CY_TOTAL_SUBJECT_COUNT. -/
def is_pinned (hash : Nat) : Bool :=
  decide (hash < CY_TOTAL_SUBJECT_COUNT)

/-- Embedding of left_wins from cy.c. The left topic is given by its age and hash;
applicable only on subject-ID allocation conflicts, whence hashes differ. -/
def left_wins (l_age l_hash r_age r_hash : Nat) : Bool :=
  if is_pinned l_hash ≠ is_pinned r_hash then
    is_pinned l_hash
  else
    let l_lage := log2_floor l_age
    let r_lage := log2_floor r_age
    if l_lage = r_lage then decide (l_hash < r_hash)
    else decide (l_lage > r_lage)

/-- Loop body of parse_pinned from cy.c: out = out * 10 + digit, rejecting non-digits
and values reaching CY_TOTAL_SUBJECT_COUNT. -/
def parse_pinned_loop : List Char → Nat → Nat
  | [], out => out
  | c :: rest, out =>
    if c < '0' ∨ c > '9' then CY_SUBJECT_ID_INVALID
    else
      if out * 10 + (c.toNat - 48) ≥ CY_TOTAL_SUBJECT_COUNT then CY_SUBJECT_ID_INVALID
      else parse_pinned_loop rest (out * 10 + (c.toNat - 48))

/-- Embedding of parse_pinned from cy.c. Returns CY_SUBJECT_ID_INVALID unless the string is
a canonical decimal number below CY_TOTAL_SUBJECT_COUNT with no leading zero. -/
def parse_pinned (s : List Char) : Nat :=
  match s with
  | [] => CY_SUBJECT_ID_INVALID
  | c :: _ => if c = '0' then CY_SUBJECT_ID_INVALID else parse_pinned_loop s 0

/-- Embedding of topic_hash from cy.c. The rapidhash of the name cannot be modelled
bit-for-bit; it is supplied as the oracle argument and used exactly where the C code
calls rapidhash, i.e. when the name does not parse as a pinned subject-ID. -/
def topic_hash (rapid : Nat) (name : List Char) : Nat :=
  let hash := parse_pinned name
  if hash ≥ CY_TOTAL_SUBJECT_COUNT then rapid else hash

/-- Embedding of topic_get_subject_id from cy.c (without the stress-test override option). -/
def topic_get_subject_id (hash evictions : Nat) : Nat :=
  if is_pinned hash then hash
  else (hash + evictions) % CY_TOPIC_SUBJECT_COUNT

-- ----------------------------------------  INPUT MODEL: DECIMAL STRINGS  ----------------------------------------

def decDigitChar (d : Nat) : Char := Char.ofNat (48 + d)

/-- Most-significant-first decimal digits of k, with fuel. -/
def decReprAux : Nat → Nat → List Char
  | 0, _ => []
  | fuel + 1, k =>
    if k = 0 then [] else decReprAux fuel (k / 10) ++ [decDigitChar (k % 10)]

/-- The canonical decimal string of k (no leading zeros); this is input data for the
hash round-trip claim, not program code. -/
def decRepr (k : Nat) : List Char := decReprAux (k + 1) k

/-- Most-significant-first decimal digits of k as naturals, with fuel; companion of decReprAux. -/
def decDigits : Nat → Nat → List Nat
  | 0, _ => []
  | fuel + 1, k =>
    if k = 0 then [] else decDigits fuel (k / 10) ++ [k % 10]

/-- Accumulator step of the decimal parse: out = out * 10 + digit. -/
def dec_step (a d : Nat) : Nat := a * 10 + d

-- ----------------------------------------  HELPER LEMMAS  ----------------------------------------

theorem log2_floor_nonneg_of_pos (x : Nat) (hx : 1 ≤ x) : 0 ≤ log2_floor x := by
  unfold log2_floor
  have : ¬(x = 0) := by omega
  simp [this]

theorem decDigits_zero (fuel : Nat) : decDigits fuel 0 = [] := by
  cases fuel <;> rfl

theorem decReprAux_eq_map (fuel : Nat) :
    ∀ k, decReprAux fuel k = (decDigits fuel k).map decDigitChar := by
  induction fuel with
  | zero => intro k; rfl
  | succ n ih =>
    intro k
    by_cases hk : k = 0
    · simp [decReprAux, decDigits, hk]
    · simp [decReprAux, decDigits, hk, ih]

theorem foldl_dec_step_ge (l : List Nat) : ∀ out, out ≤ List.foldl dec_step out l := by
  induction l with
  | nil => intro out; simp
  | cons d t ih =>
    intro out
    simp only [List.foldl_cons]
    have h1 : out ≤ dec_step out d := by unfold dec_step; omega
    exact le_trans h1 (ih _)

theorem decDigits_lt_ten (fuel : Nat) : ∀ k d, d ∈ decDigits fuel k → d < 10 := by
  induction fuel with
  | zero => intro k d hd; simp [decDigits] at hd
  | succ n ih =>
    intro k d hd
    by_cases hk : k = 0
    · simp [decDigits, hk] at hd
    · simp only [decDigits, if_neg hk, List.mem_append, List.mem_singleton] at hd
      rcases hd with hd | hd
      · exact ih _ _ hd
      · omega

theorem foldl_decDigits (fuel : Nat) :
    ∀ k out, k ≤ fuel →
      List.foldl dec_step out (decDigits fuel k) =
        out * 10 ^ (decDigits fuel k).length + k := by
  induction fuel with
  | zero =>
    intro k out hk
    have : k = 0 := by omega
    simp [this, decDigits]
  | succ n ih =>
    intro k out hk
    by_cases hk0 : k = 0
    · simp [decDigits, hk0]
    · have hdiv : k / 10 ≤ n := by omega
      simp only [decDigits, if_neg hk0, List.foldl_append, List.foldl_cons, List.foldl_nil,
        List.length_append, List.length_cons, List.length_nil]
      rw [ih (k / 10) out hdiv]
      unfold dec_step
      have hdm : 10 * (k / 10) + k % 10 = k := Nat.div_add_mod k 10
      have hpow : 10 ^ ((decDigits n (k / 10)).length + 1) =
          10 ^ (decDigits n (k / 10)).length * 10 := by ring
      rw [hpow]
      generalize (10 : Nat) ^ (decDigits n (k / 10)).length = P
      have : out * (P * 10) = out * P * 10 := by ring
      rw [this]
      generalize out * P = B
      omega

theorem decDigits_head_pos (fuel : Nat) :
    ∀ k, 1 ≤ k → k ≤ fuel →
      ∃ h t, decDigits fuel k = h :: t ∧ 1 ≤ h ∧ h < 10 := by
  induction fuel with
  | zero => intro k h1 h2; omega
  | succ n ih =>
    intro k h1 h2
    have hk0 : ¬(k = 0) := by omega
    by_cases hq : k / 10 = 0
    · have hk10 : k < 10 := by omega
      refine ⟨k % 10, [], ?_, by omega, by omega⟩
      simp [decDigits, hk0, hq, decDigits_zero]
    · obtain ⟨h, t, hlist, hh1, hh10⟩ := ih (k / 10) (by omega) (by omega)
      refine ⟨h, t ++ [k % 10], ?_, hh1, hh10⟩
      simp [decDigits, hk0, hlist]

theorem parse_pinned_loop_cons_digit (d : Nat) (rest : List Char) (out : Nat)
    (hd : d < 10) (hb : out * 10 + d < 8192) :
    parse_pinned_loop (decDigitChar d :: rest) out = parse_pinned_loop rest (out * 10 + d) := by
  have h0 : ¬(decDigitChar d < '0' ∨ decDigitChar d > '9') := by
    interval_cases d <;> decide
  have h1 : (decDigitChar d).toNat - 48 = d := by
    interval_cases d <;> decide
  simp only [parse_pinned_loop, h1]
  rw [if_neg h0, if_neg (by simp only [CY_TOTAL_SUBJECT_COUNT]; omega)]

theorem parse_pinned_loop_digits :
    ∀ (l : List Nat) (out : Nat), (∀ d ∈ l, d < 10) →
      List.foldl dec_step out l < 8192 →
      parse_pinned_loop (l.map decDigitChar) out = List.foldl dec_step out l := by
  intro l
  induction l with
  | nil => intro out _ _; rfl
  | cons d t ih =>
    intro out hdig hb
    have hd10 : d < 10 := hdig d (by simp)
    simp only [List.foldl_cons] at hb
    have hout2 : out * 10 + d < 8192 := by
      have hge := foldl_dec_step_ge t (dec_step out d)
      have hlt2 : dec_step out d < 8192 := lt_of_le_of_lt hge hb
      unfold dec_step at hlt2
      omega
    simp only [List.map_cons]
    rw [parse_pinned_loop_cons_digit d _ out hd10 hout2]
    simp only [List.foldl_cons]
    have : dec_step out d = out * 10 + d := rfl
    rw [← this]
    exact ih (dec_step out d) (fun x hx => hdig x (by simp [hx])) hb

theorem parse_pinned_decRepr (k : Nat) (h8 : k < 8192) (h1 : 1 ≤ k) :
    parse_pinned (decRepr k) = k := by
  obtain ⟨h, t, hlist, hh1, hh10⟩ := decDigits_head_pos (k + 1) k h1 (by omega)
  have hmap : decRepr k = (decDigits (k + 1) k).map decDigitChar := decReprAux_eq_map _ _
  have hfold : List.foldl dec_step 0 (decDigits (k + 1) k) = k := by
    have := foldl_decDigits (k + 1) k 0 (by omega)
    simpa using this
  have hlt : ∀ d ∈ decDigits (k + 1) k, d < 10 := decDigits_lt_ten _ _
  rw [hlist] at hfold hlt
  rw [hmap, hlist]
  simp only [List.map_cons, parse_pinned]
  have hne0 : ¬(decDigitChar h = '0') := by interval_cases h <;> decide
  rw [if_neg hne0]
  have hres := parse_pinned_loop_digits (h :: t) 0 hlt (by rw [hfold]; omega)
  simp only [List.map_cons] at hres
  rw [hres, hfold]

-- ----------------------------------------  CLAIM C1  ----------------------------------------

/-- C1: for two topics contesting one subject-ID slot with different hashes, left_wins
arbitrates as specified: if exactly one is pinned the pinned one wins; otherwise the
larger floor(log2(age)) wins, age 0 ranking (log value -1) below every nonzero age;
on equal log-ages the numerically smaller hash wins. -/
theorem left_wins_arbitration (l_age l_hash r_age r_hash : Nat)
    (_hne : l_hash ≠ r_hash) :
    (is_pinned l_hash ≠ is_pinned r_hash →
        left_wins l_age l_hash r_age r_hash = is_pinned l_hash)
    ∧ (is_pinned l_hash = is_pinned r_hash → log2_floor l_age ≠ log2_floor r_age →
        (left_wins l_age l_hash r_age r_hash = true ↔ log2_floor l_age > log2_floor r_age))
    ∧ (is_pinned l_hash = is_pinned r_hash → log2_floor l_age = log2_floor r_age →
        (left_wins l_age l_hash r_age r_hash = true ↔ l_hash < r_hash))
    ∧ (l_age = 0 → 1 ≤ r_age → log2_floor l_age < log2_floor r_age) := by
  refine ⟨?_, ?_, ?_, ?_⟩
  · intro hpin
    simp [left_wins, hpin]
  · intro hpin hlage
    simp [left_wins, hpin, hlage]
  · intro hpin hlage
    simp [left_wins, hpin, hlage]
  · intro h0 hr1
    have h1 : log2_floor l_age = -1 := by simp [log2_floor, h0]
    have h2 : 0 ≤ log2_floor r_age := log2_floor_nonneg_of_pos r_age hr1
    omega

theorem left_wins_arbitration_witness : left_wins 4 9000 3 10000 = true :=
  ((left_wins_arbitration 4 9000 3 10000 (by decide)).2.1 (by decide) (by decide)).mpr
    (by decide)

-- ----------------------------------------  CLAIM C6  ----------------------------------------

/-- C6: for every integer k in the pinned range, hashing the canonical decimal string of k
yields hash equal to k (regardless of the rapidhash oracle, which is not consulted), and
the subject-ID of a topic with that hash is k for every eviction count. -/
theorem pinned_round_trip (k : Nat) (h1 : 1 ≤ k) (h2 : k < 8192) :
    (∀ rapid, topic_hash rapid (decRepr k) = k)
    ∧ (∀ evictions, topic_get_subject_id k evictions = k) := by
  constructor
  · intro rapid
    have hp := parse_pinned_decRepr k h2 h1
    unfold topic_hash
    rw [hp]
    have : ¬(k ≥ CY_TOTAL_SUBJECT_COUNT) := by
      simp [CY_TOTAL_SUBJECT_COUNT]; omega
    simp [this]
  · intro evictions
    unfold topic_get_subject_id is_pinned
    have : k < CY_TOTAL_SUBJECT_COUNT := by simp [CY_TOTAL_SUBJECT_COUNT]; omega
    simp [this]

theorem pinned_round_trip_witness :
    topic_hash 987654321 (decRepr 42) = 42 ∧ topic_get_subject_id 42 7 = 42 :=
  ⟨(pinned_round_trip 42 (by decide) (by decide)).1 987654321,
   (pinned_round_trip 42 (by decide) (by decide)).2 7⟩

-- ----------------------------------------  NAMES (cy.c)  ----------------------------------------

/-- Canonicalization loop of compose_topic_name from cy.c: drops repeated and leading
slashes, copying all other characters, rejecting when the input read position exceeds
CY_TOPIC_NAME_MAX. The read index is checked before each character is consumed. -/
def canonLoop : List Char → Nat → Char → List Char → Option (List Char × Char)
  | [], _, prev, acc => some (acc, prev)
  | c :: rest, idx, prev, acc =>
    if idx > CY_TOPIC_NAME_MAX then none
    else if c = '/' then
      if prev ≠ '/' then canonLoop rest (idx + 1) c (acc ++ [c])
      else canonLoop rest (idx + 1) c acc
    else canonLoop rest (idx + 1) c (acc ++ [c])

/-- Embedding of compose_topic_name from cy.c. The temporary-buffer snprintf truncation at
105 characters is not modelled: any input long enough to be truncated is rejected by the
read-position check anyway, so the accept/reject boundary and all accepted outputs agree
with the C code. -/
def compose_tmp (ns user name : List Char) : List Char :=
  if name.head? ≠ some '/' then
    (if name.head? = some '~' ∨ ns.head? = some '~' then user else ns) ++
      '/' :: (if name.head? = some '~' then name.tail else name)
  else name

def compose_topic_name (ns user name : List Char) : Option (List Char) :=
  match canonLoop (compose_tmp ns user name) 0 '/' [] with
  | none => none
  | some (acc, prev) =>
    some (if prev = '/' ∧ acc ≠ [] then acc.dropLast else acc)

/-- No two adjacent slashes. -/
def noDoubleSlash (l : List Char) : Prop :=
  List.Chain' (fun a b => ¬(a = '/' ∧ b = '/')) l

/-- Invariant of the canonicalization loop state. -/
def canonInv (acc : List Char) (prev : Char) : Prop :=
  noDoubleSlash acc ∧
  acc.head? ≠ some '/' ∧
  (acc = [] → prev = '/') ∧
  (acc ≠ [] → (acc.getLast? = some '/' ↔ prev = '/'))

/-- Shape of every string produced by the canonicalizer: no double slash, no leading
slash, no trailing slash. -/
def canonicalOut (l : List Char) : Prop :=
  noDoubleSlash l ∧ l.head? ≠ some '/' ∧ l.getLast? ≠ some '/'

theorem chain_append_singleton (acc : List Char) (c : Char)
    (hchain : noDoubleSlash acc)
    (h : ¬(acc.getLast? = some '/' ∧ c = '/')) :
    noDoubleSlash (acc ++ [c]) := by
  rw [noDoubleSlash, List.chain'_append]
  refine ⟨hchain, List.chain'_singleton _, ?_⟩
  intro x hx y hy
  simp only [List.head?_cons, Option.mem_def, Option.some.injEq] at hx hy
  intro hpair
  exact h ⟨by rw [hx, hpair.1], by rw [hy, hpair.2]⟩

theorem head_append_singleton_ne (acc : List Char) (c : Char)
    (hhead : acc.head? ≠ some '/') (hc : acc = [] → ¬(c = '/')) :
    (acc ++ [c]).head? ≠ some '/' := by
  cases acc with
  | nil => simpa using hc rfl
  | cons a t => simpa using hhead

theorem canonLoop_inv :
    ∀ (inp : List Char) (idx : Nat) (prev : Char) (acc acc2 : List Char) (prev2 : Char),
      canonLoop inp idx prev acc = some (acc2, prev2) → canonInv acc prev →
      canonInv acc2 prev2 := by
  intro inp
  induction inp with
  | nil =>
    intro idx prev acc acc2 prev2 hrun hinv
    simp only [canonLoop, Option.some.injEq, Prod.mk.injEq] at hrun
    obtain ⟨h1, h2⟩ := hrun
    rw [← h1, ← h2]
    exact hinv
  | cons c rest ih =>
    intro idx prev acc acc2 prev2 hrun hinv
    obtain ⟨hchain, hhead, hemp, hlast⟩ := hinv
    simp only [canonLoop] at hrun
    by_cases hidx : idx > CY_TOPIC_NAME_MAX
    · rw [if_pos hidx] at hrun; exact absurd hrun (by simp)
    rw [if_neg hidx] at hrun
    by_cases hc : c = '/'
    · rw [if_pos hc] at hrun
      by_cases hp : prev ≠ '/'
      · rw [if_pos hp] at hrun
        have haccne : acc ≠ [] := fun h => hp (hemp h)
        have hlast2 : ¬(acc.getLast? = some '/') := fun h => hp ((hlast haccne).mp h)
        refine ih _ _ _ _ _ hrun ⟨?_, ?_, ?_, ?_⟩
        · exact chain_append_singleton acc c hchain (fun hpair => hlast2 hpair.1)
        · exact head_append_singleton_ne acc c hhead (fun h => absurd h haccne)
        · intro h; exact absurd h (by simp)
        · intro _
          rw [List.getLast?_concat]
          simp [hc]
      · rw [if_neg hp] at hrun
        push_neg at hp
        refine ih _ _ _ _ _ hrun ⟨hchain, hhead, fun _ => hc, ?_⟩
        intro hne
        rw [hc]
        exact ⟨fun _ => rfl, fun _ => (hlast hne).mpr hp⟩
    · rw [if_neg hc] at hrun
      refine ih _ _ _ _ _ hrun ⟨?_, ?_, ?_, ?_⟩
      · exact chain_append_singleton acc c hchain (fun hpair => hc hpair.2)
      · exact head_append_singleton_ne acc c hhead (fun _ => hc)
      · intro h; exact absurd h (by simp)
      · intro _
        rw [List.getLast?_concat]
        simp [hc]

theorem canonLoop_canonical :
    ∀ (inp : List Char) (idx : Nat) (prev : Char) (acc : List Char),
      List.Chain' (fun a b => ¬(a = '/' ∧ b = '/')) (prev :: inp) →
      idx + inp.length ≤ CY_TOPIC_NAME_MAX + 1 →
      canonLoop inp idx prev acc = some (acc ++ inp, inp.getLastD prev) := by
  intro inp
  induction inp with
  | nil =>
    intro idx prev acc _ _
    simp [canonLoop]
  | cons c rest ih =>
    intro idx prev acc hchain hlen
    have hpc : ¬(prev = '/' ∧ c = '/') := (List.chain'_cons.mp hchain).1
    have hrest : List.Chain' (fun a b => ¬(a = '/' ∧ b = '/')) (c :: rest) :=
      (List.chain'_cons.mp hchain).2
    have hidx : ¬(idx > CY_TOPIC_NAME_MAX) := by
      simp only [List.length_cons] at hlen
      omega
    have hlen2 : idx + 1 + rest.length ≤ CY_TOPIC_NAME_MAX + 1 := by
      simp only [List.length_cons] at hlen
      omega
    simp only [canonLoop, if_neg hidx]
    by_cases hc : c = '/'
    · have hp : prev ≠ '/' := fun h => hpc ⟨h, hc⟩
      rw [if_pos hc, if_pos hp, ih (idx + 1) c (acc ++ [c]) hrest hlen2]
      simp only [List.append_assoc, List.cons_append, List.nil_append, List.getLastD_cons]
    · rw [if_neg hc, ih (idx + 1) c (acc ++ [c]) hrest hlen2]
      simp only [List.append_assoc, List.cons_append, List.nil_append, List.getLastD_cons]

theorem strip_canonical (acc : List Char) (prev : Char) (hinv : canonInv acc prev) :
    canonicalOut (if prev = '/' ∧ acc ≠ [] then acc.dropLast else acc) := by
  obtain ⟨hchain, hhead, hemp, hlast⟩ := hinv
  by_cases hcond : prev = '/' ∧ acc ≠ []
  · rw [if_pos hcond]
    obtain ⟨hp, hne⟩ := hcond
    have hlast2 : acc.getLast? = some '/' := (hlast hne).mpr hp
    obtain ⟨l2, a, hconcat⟩ := List.eq_nil_or_concat acc |>.resolve_left hne
    rw [List.concat_eq_append] at hconcat
    have ha : a = '/' := by
      rw [hconcat, List.getLast?_concat] at hlast2
      exact Option.some.inj hlast2
    subst hconcat
    rw [List.dropLast_concat]
    refine ⟨?_, ?_, ?_⟩
    · exact (List.chain'_append.mp hchain).1
    · cases l2 with
      | nil => simp
      | cons x t =>
        intro hx
        exact hhead (by simpa using hx)
    · intro hl2
      have := (List.chain'_append.mp hchain).2.2
      obtain ⟨x, hx⟩ := Option.ne_none_iff_exists'.mp (by simp [hl2] : l2.getLast? ≠ none)
      have hxne : ¬(x = '/' ∧ a = '/') := this x hx a (by simp)
      have hx2 : x = '/' := Option.some.inj (hx ▸ hl2)
      exact hxne ⟨hx2, ha⟩
  · rw [if_neg hcond]
    refine ⟨hchain, hhead, ?_⟩
    by_cases hne : acc = []
    · simp [hne]
    · intro hl
      have hp : prev = '/' := (hlast hne).mp hl
      exact hcond ⟨hp, hne⟩

theorem compose_output_canonical (ns user name out : List Char)
    (h : compose_topic_name ns user name = some out) : canonicalOut out := by
  unfold compose_topic_name at h
  cases hrun : canonLoop (compose_tmp ns user name) 0 '/' [] with
  | none => rw [hrun] at h; exact absurd h (by simp)
  | some p =>
    obtain ⟨acc2, prev2⟩ := p
    rw [hrun] at h
    simp only [Option.some.injEq] at h
    have hinv0 : canonInv [] '/' := by
      refine ⟨List.chain'_nil, by simp, fun _ => rfl, fun hcon => absurd rfl hcon⟩
    have hinv := canonLoop_inv _ _ _ _ _ _ hrun hinv0
    have hstrip := strip_canonical acc2 prev2 hinv
    rw [← h]
    exact hstrip

-- ----------------------------------------  CLAIM C7  ----------------------------------------

/-- C7 counterexample: with namespace foo (no leading slash) the canonicalizer is not
idempotent, because re-canonicalizing prefixes the namespace a second time. -/
theorem compose_topic_name_not_idempotent :
    compose_topic_name ['f', 'o', 'o'] ['u'] ['a', 'b', 'c'] =
      some ['f', 'o', 'o', '/', 'a', 'b', 'c'] ∧
    compose_topic_name ['f', 'o', 'o'] ['u'] ['f', 'o', 'o', '/', 'a', 'b', 'c'] ≠
      some ['f', 'o', 'o', '/', 'a', 'b', 'c'] := by
  decide

/-- C7 amended: canonicalization is idempotent for the default root namespace. For every
user name and raw name accepted with namespace slash, if the canonical result does not
begin with a tilde and is at most 95 characters long (so the second pass cannot overrun
the read-position bound), canonicalizing it again succeeds and returns it unchanged. -/
theorem compose_root_idempotent (user x out : List Char)
    (h : compose_topic_name ['/'] user x = some out)
    (hlen : out.length ≤ 95)
    (htilde : out.head? ≠ some '~') :
    compose_topic_name ['/'] user out = some out := by
  obtain ⟨hchain, hhead, hlast⟩ := compose_output_canonical ['/'] user x out h
  have htmp : compose_tmp ['/'] user out = '/' :: '/' :: out := by
    unfold compose_tmp
    rw [if_pos hhead, if_neg ?tilde, if_neg ?tl]
    case tilde =>
      intro hd
      rcases hd with hd | hd
      · exact htilde hd
      · simp at hd
    case tl =>
      intro hd
      exact htilde hd
    rfl
  unfold compose_topic_name
  rw [htmp]
  have h2 : canonLoop ('/' :: '/' :: out) 0 '/' [] = canonLoop out 2 '/' [] := by
    simp [canonLoop, CY_TOPIC_NAME_MAX]
  have hchain2 : List.Chain' (fun a b => ¬(a = '/' ∧ b = '/')) ('/' :: out) := by
    cases out with
    | nil => simp
    | cons a t =>
      refine List.chain'_cons.mpr ⟨fun hp => hhead (by simp [hp.2]), hchain⟩
  have hrun := canonLoop_canonical out 2 '/' [] hchain2
    (by simp only [CY_TOPIC_NAME_MAX]; omega)
  rw [h2, hrun]
  simp only [List.nil_append]
  by_cases hne : out = []
  · simp [hne, List.getLastD]
  · have hgl : out.getLastD '/' ≠ '/' := by
      rw [List.getLastD_eq_getLast?]
      cases hq : out.getLast? with
      | none => exact absurd (List.getLast?_eq_none_iff.mp hq) hne
      | some b =>
        simp only [Option.getD_some]
        intro hb
        exact hlast (by rw [hq, hb])
    rw [if_neg (fun hcond => hgl hcond.1)]

theorem compose_root_idempotent_witness :
    compose_topic_name ['/'] ['u'] ['a', 'b', 'c'] = some ['a', 'b', 'c'] :=
  compose_root_idempotent ['u'] ['a', 'b', 'c'] ['a', 'b', 'c']
    (by decide) (by decide) (by decide)

-- ----------------------------------------  NODE ID ALLOCATION (cy.c)  ----------------------------------------

def U64_MAX : Nat := 2 ^ 64 - 1

/-- Model of struct cy_bloom64_t: bit count (a positive multiple of 64), storage words
(each below 2 pow 64), and the cached popcount. -/
structure cy_bloom64 where
  n_bits : Nat
  storage : List Nat
  popcount : Nat

/-- Embedding of bloom64_get from cy.c. -/
def bloom64_get (bloom : cy_bloom64) (value : Nat) : Bool :=
  let index := value % bloom.n_bits
  (bloom.storage.getD (index / 64) 0).testBit (index % 64)

/-- Embedding of bloom64_set from cy.c. -/
def bloom64_set (bloom : cy_bloom64) (value : Nat) : cy_bloom64 :=
  let index := value % bloom.n_bits
  let w := bloom.storage.getD (index / 64) 0
  if w.testBit (index % 64) then bloom
  else
    { bloom with
      storage := bloom.storage.set (index / 64) (w ||| 2 ^ (index % 64))
      popcount := bloom.popcount + 1 }

/-- Embedding of bloom64_purge from cy.c. -/
def bloom64_purge (bloom : cy_bloom64) : cy_bloom64 :=
  { bloom with storage := bloom.storage.map (fun _ => 0), popcount := 0 }

/-- Embedding of random_uint from cy.c, with the raw 64-bit draw supplied as the oracle r.
Note the C code never returns max when min < max, despite its doc comment. -/
def random_uint (r mn mx : Nat) : Nat :=
  if mn < mx then r % (mx - mn) + mn else mn

/-- Word-scan loop of pick_node_id: advance cyclically until a word with a zero bit is
found, at most num_words steps. -/
def pick_scan_words (storage : List Nat) (num_words : Nat) : Nat → Nat → Nat
  | 0, idx => idx
  | fuel + 1, idx =>
    if storage.getD idx 0 ≠ U64_MAX then idx
    else pick_scan_words storage num_words fuel ((idx + 1) % num_words)

/-- Bit-scan loop of pick_node_id: advance cyclically from the random start until a zero
bit is found; 64 steps of fuel suffice since the word has a zero bit. -/
def pick_scan_bits (word : Nat) : Nat → Nat → Nat
  | 0, b => b
  | fuel + 1, b =>
    if ¬ word.testBit b then b
    else pick_scan_bits word fuel ((b + 1) % 64)

/-- Embedding of pick_node_id from cy.c. The three oracle draws r_word, r_full or r_bit,
and r_mult stand for the successive random_u64 results. Returns the chosen node-ID
(after the uint16 cast) and the updated Bloom filter. -/
def pick_node_id (bloom : cy_bloom64) (node_id_max : Nat)
    (r_word r_full r_bit r_mult : Nat) : Nat × cy_bloom64 :=
  let num_words := (min node_id_max bloom.n_bits + 63) / 64
  let word_index := pick_scan_words bloom.storage num_words num_words
    (random_uint r_word 0 (num_words - 1))
  let word := bloom.storage.getD word_index 0
  if word = U64_MAX then
    (random_uint r_full 0 node_id_max % 65536, bloom)
  else
    let bit_index := pick_scan_bits word 64 (random_uint r_bit 0 63)
    let node_id := word_index * 64 + bit_index
    let node_id2 := node_id + random_uint r_mult 0 (node_id_max / bloom.n_bits) * bloom.n_bits
    (node_id2 % 65536, bloom64_set bloom node_id2)

-- ----------------------------------------  CLAIM C8  ----------------------------------------

/-- C8: the pick procedure can return a node-ID outside the allowed range. With
node_id_max 65 and a 128-bit Bloom whose first word is full and whose second word has
only bit 2 clear, the scan lands on word 1, bit 2, yielding node-ID 66 greater than 65,
in contradiction with the in-range claim and with the asserts in pick_node_id itself. -/
theorem pick_node_id_exceeds_max :
    (pick_node_id ⟨128, [U64_MAX, U64_MAX - 4], 127⟩ 65 0 0 2 0).1 = 66 ∧
    ¬(66 ≤ 65) := by
  constructor
  · rfl
  · decide

-- ----------------------------------------  NODE ID STATE (cy.c / cy.h)  ----------------------------------------

/-- Embedding of cy_has_node_id from cy.h: a node-ID is valid iff it does not exceed
node_id_max. -/
def cy_has_node_id (node_id node_id_max : Nat) : Bool :=
  decide (node_id ≤ node_id_max)

/-- Node-ID initialization performed by cy_new in cy.c: an explicit node-ID within range
is used as-is, anything else becomes CY_NODE_ID_INVALID. -/
def cy_new_node_id (node_id node_id_max : Nat) : Nat :=
  if node_id ≤ node_id_max then node_id else CY_NODE_ID_INVALID

/-- The slice of struct cy_t that the node-ID logic of cy_update reads and writes. -/
structure cy_node_id_state where
  node_id : Nat
  node_id_max : Nat
  node_id_collision : Bool
  heartbeat_next : Int

/-- Embedding of the node-ID phase of cy_update from cy.c: the delayed collision
processing, then the pick decision on the heartbeat path. The picked_id argument stands
for the pick_node_id result. The returned Bool reports whether pick_node_id (and hence
the transport node_id_set hook) was invoked. -/
def cy_update_node_id_phase (st : cy_node_id_state) (now : Int) (picked_id : Nat) :
    Bool × cy_node_id_state :=
  let st1 :=
    if st.node_id_collision then
      if st.node_id ≤ st.node_id_max then
        { st with node_id_collision := false, node_id := CY_NODE_ID_INVALID,
                  heartbeat_next := now }
      else { st with node_id_collision := false }
    else st
  if now ≥ st1.heartbeat_next then
    if st1.node_id ≥ st1.node_id_max then
      (true, { st1 with node_id := picked_id })
    else (false, st1)
  else (false, st1)

-- ----------------------------------------  CLAIM C3  ----------------------------------------

/-- C3: the code contradicts the claim at node_id equal to node_id_max. A node
constructed by cy_new with the valid explicit node-ID 127 equal to node_id_max (so
cy_has_node_id holds) nevertheless has a new node-ID picked by cy_update on its first
due heartbeat without any collision, because cy_update tests node_id GE node_id_max
rather than the negation of cy_has_node_id. -/
theorem cy_update_picks_at_node_id_max :
    cy_new_node_id 127 127 = 127 ∧
    cy_has_node_id 127 127 = true ∧
    (cy_update_node_id_phase ⟨127, 127, false, 0⟩ 0 42).1 = true ∧
    (cy_update_node_id_phase ⟨127, 127, false, 0⟩ 0 42).2.node_id = 42 := by
  refine ⟨by decide, by decide, by decide, by decide⟩

-- ----------------------------------------  TOPIC ALLOCATION (cy.c)  ----------------------------------------

/-- The fields of struct cy_topic_t that the allocation and heartbeat-merge logic reads
and writes. Topic identity is the hash, unique per node (spec invariant 1); the sub_list
pointer is abstracted to whether it is non-null. -/
structure cy_topic where
  hash : Nat
  evictions : Nat
  age : Nat
  last_gossip : Int
  subscribed : Bool
  has_sub_list : Bool
deriving DecidableEq

/-- Embedding of cy_topic_get_subject_id from cy.c. -/
def topic_sid (t : cy_topic) : Nat := topic_get_subject_id t.hash t.evictions

/-- Embedding of schedule_gossip_asap from cy.c: if the topic is not already scheduled
(last_gossip positive), move it to rank 0, or rank 1 for pinned topics. -/
def schedule_gossip_asap (t : cy_topic) : cy_topic :=
  if t.last_gossip > 0 then
    { t with last_gossip := if is_pinned t.hash then 1 else 0 }
  else t

/-- Exit actions of allocate_topic from cy.c once a slot is taken: schedule the topic for
gossip and, if it has subscribers, retry the transport subscription, whose outcome is
the oracle sub_ok. -/
def alloc_finish (t : cy_topic) (sub_ok : Bool) : cy_topic :=
  if (schedule_gossip_asap t).has_sub_list then
    { schedule_gossip_asap t with subscribed := sub_ok }
  else schedule_gossip_asap t

/-- Slot-search loop of allocate_topic from cy.c over the subject-ID index, modelled as a
list of the other topics (the moving topic is out of the index, as in the C code). Fuel
models the loop-iteration bound asserted in the C code (iter_count at most topic_count,
itself at most CY_TOPIC_SUBJECT_COUNT); each iteration either inserts the topic into a
free slot, displaces a lower-ranked tenant recursively, or advances the eviction
counter. -/
def alloc_loop : Nat → List cy_topic → cy_topic → Nat → Bool → Option (List cy_topic)
  | 0, _, _, _, _ => none
  | fuel + 1, ts, t, e, sub_ok =>
    match ts.find? (fun o => topic_sid o == topic_get_subject_id t.hash e) with
    | none => some (alloc_finish { t with evictions := e } sub_ok :: ts)
    | some other =>
      if left_wins t.age t.hash other.age other.hash then
        match alloc_loop fuel (ts.filter (fun o => o.hash != other.hash))
            { other with subscribed := false } (other.evictions + 1) sub_ok with
        | none => none
        | some ts2 => alloc_loop fuel ts2 t e sub_ok
      else alloc_loop fuel ts t (e + 1) sub_ok

/-- Embedding of allocate_topic from cy.c: tear down the transport subscription, then run
the slot-search loop starting from new_evictions. -/
def allocate_topic (fuel : Nat) (ts : List cy_topic) (t : cy_topic) (new_evictions : Nat)
    (sub_ok : Bool) : Option (List cy_topic) :=
  alloc_loop fuel ts { t with subscribed := false } new_evictions sub_ok

/-- The last_gossip restore of on_heartbeat from cy.c (perfect sync, no need to gossip):
if the reallocated topic ended exactly at the remote eviction count, its previous
last_gossip value og is put back. -/
def restore_gossip_if_synced (ts : List cy_topic) (h oe : Nat) (og : Int) : List cy_topic :=
  ts.map (fun t =>
    if t.hash == h && t.evictions == oe then { t with last_gossip := og } else t)

/-- Embedding of the known-topic branch of on_heartbeat from cy.c (the local database
holds a topic with the same hash as the gossip): on equal eviction counters only the age
is merged; on a divergence the local node either keeps its allocation and schedules a
gossip, or merges the age and reallocates from the remote eviction count, restoring
last_gossip on perfect sync. The final unconditional age merge of the C code is included
in every path. -/
def on_heartbeat_known_topic (fuel : Nat) (ts : List cy_topic) (mine : cy_topic)
    (other_evictions other_age : Nat) (sub_ok : Bool) : Option (Bool × List cy_topic) :=
  if mine.evictions = other_evictions then
    some (true, { mine with age := max mine.age other_age } :: ts)
  else if log2_floor mine.age > log2_floor other_age ∨
      (log2_floor mine.age = log2_floor other_age ∧ mine.evictions > other_evictions) then
    some (true, { schedule_gossip_asap mine with age := max mine.age other_age } :: ts)
  else
    match allocate_topic fuel ts { mine with age := max mine.age other_age }
        other_evictions sub_ok with
    | none => none
    | some ts2 =>
      some (false, restore_gossip_if_synced ts2 mine.hash other_evictions mine.last_gossip)

-- ----------------------------------------  ALLOCATION LEMMAS  ----------------------------------------

theorem schedule_gossip_asap_hash (t : cy_topic) : (schedule_gossip_asap t).hash = t.hash := by
  unfold schedule_gossip_asap; split_ifs <;> rfl

theorem schedule_gossip_asap_age (t : cy_topic) : (schedule_gossip_asap t).age = t.age := by
  unfold schedule_gossip_asap; split_ifs <;> rfl

theorem schedule_gossip_asap_evictions (t : cy_topic) :
    (schedule_gossip_asap t).evictions = t.evictions := by
  unfold schedule_gossip_asap; split_ifs <;> rfl

theorem alloc_finish_hash (t : cy_topic) (s : Bool) : (alloc_finish t s).hash = t.hash := by
  unfold alloc_finish; split_ifs <;> simp [schedule_gossip_asap_hash]

theorem alloc_finish_age (t : cy_topic) (s : Bool) : (alloc_finish t s).age = t.age := by
  unfold alloc_finish; split_ifs <;> simp [schedule_gossip_asap_age]

theorem alloc_finish_evictions (t : cy_topic) (s : Bool) :
    (alloc_finish t s).evictions = t.evictions := by
  unfold alloc_finish; split_ifs <;> simp [schedule_gossip_asap_evictions]

theorem alloc_loop_hashes (fuel : Nat) :
    ∀ (ts : List cy_topic) (t : cy_topic) (e : Nat) (s : Bool) (ts2 : List cy_topic),
      alloc_loop fuel ts t e s = some ts2 →
      ∀ u ∈ ts2, u.hash = t.hash ∨ ∃ v ∈ ts, u.hash = v.hash := by
  induction fuel with
  | zero => intro ts t e s ts2 hrun; exact absurd hrun (by simp [alloc_loop])
  | succ n ih =>
    intro ts t e s ts2 hrun u hu
    cases hfind : ts.find? (fun o => topic_sid o == topic_get_subject_id t.hash e) with
    | none =>
      simp only [alloc_loop, hfind, Option.some.injEq] at hrun
      rw [← hrun] at hu
      rcases List.mem_cons.mp hu with hu | hu
      · left; rw [hu, alloc_finish_hash]
      · right; exact ⟨u, hu, rfl⟩
    | some other =>
      simp only [alloc_loop, hfind] at hrun
      have hother : other ∈ ts := List.mem_of_find?_eq_some hfind
      by_cases hwin : left_wins t.age t.hash other.age other.hash = true
      · rw [if_pos hwin] at hrun
        cases hinner : alloc_loop n (ts.filter (fun o => o.hash != other.hash))
            { other with subscribed := false } (other.evictions + 1) s with
        | none => rw [hinner] at hrun; exact absurd hrun (by simp)
        | some tsA =>
          rw [hinner] at hrun
          rcases ih tsA t e s ts2 hrun u hu with h | ⟨v, hv, hveq⟩
          · left; exact h
          · rcases ih _ _ _ _ _ hinner v hv with h2 | ⟨w, hw, hweq⟩
            · right; exact ⟨other, hother, by rw [hveq, h2]⟩
            · right; exact ⟨w, List.mem_of_mem_filter hw, by rw [hveq, hweq]⟩
      · rw [if_neg hwin] at hrun
        exact ih ts t (e + 1) s ts2 hrun u hu

theorem alloc_loop_moved_fields (fuel : Nat) :
    ∀ (ts : List cy_topic) (t : cy_topic) (e : Nat) (s : Bool) (ts2 : List cy_topic),
      alloc_loop fuel ts t e s = some ts2 →
      (∀ v ∈ ts, v.hash ≠ t.hash) →
      ∀ u ∈ ts2, u.hash = t.hash →
        u.age = t.age ∧ e ≤ u.evictions ∧ u.evictions < e + fuel := by
  induction fuel with
  | zero => intro ts t e s ts2 hrun _; exact absurd hrun (by simp [alloc_loop])
  | succ n ih =>
    intro ts t e s ts2 hrun hts u hu huh
    cases hfind : ts.find? (fun o => topic_sid o == topic_get_subject_id t.hash e) with
    | none =>
      simp only [alloc_loop, hfind, Option.some.injEq] at hrun
      rw [← hrun] at hu
      rcases List.mem_cons.mp hu with hu | hu
      · refine ⟨?_, ?_, ?_⟩
        · rw [hu, alloc_finish_age]
        · rw [hu, alloc_finish_evictions]
        · rw [hu, alloc_finish_evictions]
          show e < e + (n + 1)
          omega
      · exact absurd huh (hts u hu)
    | some other =>
      simp only [alloc_loop, hfind] at hrun
      have hother : other ∈ ts := List.mem_of_find?_eq_some hfind
      by_cases hwin : left_wins t.age t.hash other.age other.hash = true
      · rw [if_pos hwin] at hrun
        cases hinner : alloc_loop n (ts.filter (fun o => o.hash != other.hash))
            { other with subscribed := false } (other.evictions + 1) s with
        | none => rw [hinner] at hrun; exact absurd hrun (by simp)
        | some tsA =>
          rw [hinner] at hrun
          have htsA : ∀ v ∈ tsA, v.hash ≠ t.hash := by
            intro v hv
            rcases alloc_loop_hashes n _ _ _ _ _ hinner v hv with h | ⟨w, hw, hweq⟩
            · rw [h]; exact hts other hother
            · rw [hweq]; exact hts w (List.mem_of_mem_filter hw)
          have hres := ih tsA t e s ts2 hrun htsA u hu huh
          exact ⟨hres.1, hres.2.1, by omega⟩
      · rw [if_neg hwin] at hrun
        have hres := ih ts t (e + 1) s ts2 hrun hts u hu huh
        exact ⟨hres.1, by omega, by omega⟩

theorem alloc_loop_pinned_exact (fuel : Nat) :
    ∀ (ts : List cy_topic) (t : cy_topic) (e : Nat) (s : Bool) (ts2 : List cy_topic),
      alloc_loop fuel ts t e s = some ts2 →
      (∀ v ∈ ts, v.hash ≠ t.hash) → is_pinned t.hash = true →
      ∀ u ∈ ts2, u.hash = t.hash → u.evictions = e := by
  induction fuel with
  | zero => intro ts t e s ts2 hrun _ _; exact absurd hrun (by simp [alloc_loop])
  | succ n ih =>
    intro ts t e s ts2 hrun hts hpin u hu huh
    cases hfind : ts.find? (fun o => topic_sid o == topic_get_subject_id t.hash e) with
    | none =>
      simp only [alloc_loop, hfind, Option.some.injEq] at hrun
      rw [← hrun] at hu
      rcases List.mem_cons.mp hu with hu | hu
      · rw [hu, alloc_finish_evictions]
      · exact absurd huh (hts u hu)
    | some other =>
      simp only [alloc_loop, hfind] at hrun
      have hother : other ∈ ts := List.mem_of_find?_eq_some hfind
      have hprop := List.find?_some hfind
      simp only [beq_iff_eq] at hprop
      have hsid : topic_sid other = t.hash := by
        rw [hprop]
        simp [topic_get_subject_id, hpin]
      by_cases hwin : left_wins t.age t.hash other.age other.hash = true
      · rw [if_pos hwin] at hrun
        cases hinner : alloc_loop n (ts.filter (fun o => o.hash != other.hash))
            { other with subscribed := false } (other.evictions + 1) s with
        | none => rw [hinner] at hrun; exact absurd hrun (by simp)
        | some tsA =>
          rw [hinner] at hrun
          have htsA : ∀ v ∈ tsA, v.hash ≠ t.hash := by
            intro v hv
            rcases alloc_loop_hashes n _ _ _ _ _ hinner v hv with h | ⟨w, hw, hweq⟩
            · rw [h]; exact hts other hother
            · rw [hweq]; exact hts w (List.mem_of_mem_filter hw)
          exact ih tsA t e s ts2 hrun htsA hpin u hu huh
      · exfalso
        by_cases hop : is_pinned other.hash = true
        · have h2 : topic_sid other = other.hash := by
            simp [topic_sid, topic_get_subject_id, hop]
          exact hts other hother (h2 ▸ hsid)
        · exact hwin (by simp [left_wins, hpin, hop])

-- ----------------------------------------  CLAIM C2  ----------------------------------------

/-- C2: on a divergence (known hash, differing eviction counters), the local node wins,
keeping its allocation and scheduling the topic for immediate gossip, if and only if
floor(log2(local age)) exceeds floor(log2(remote age)) or the log-ages are equal and
the local eviction count is greater; otherwise the local age is first set to
max(local age, remote age) and the topic is reallocated starting from the remote
eviction count (with the perfect-sync gossip restore applied to the result). -/
theorem on_heartbeat_divergence_rule (fuel : Nat) (ts : List cy_topic) (mine : cy_topic)
    (other_evictions other_age : Nat) (sub_ok : Bool)
    (hdiff : mine.evictions ≠ other_evictions) :
    ((log2_floor mine.age > log2_floor other_age ∨
        (log2_floor mine.age = log2_floor other_age ∧ mine.evictions > other_evictions)) →
      on_heartbeat_known_topic fuel ts mine other_evictions other_age sub_ok =
        some (true, { schedule_gossip_asap mine with age := max mine.age other_age } :: ts))
    ∧ (¬(log2_floor mine.age > log2_floor other_age ∨
        (log2_floor mine.age = log2_floor other_age ∧ mine.evictions > other_evictions)) →
      on_heartbeat_known_topic fuel ts mine other_evictions other_age sub_ok =
        (allocate_topic fuel ts { mine with age := max mine.age other_age }
            other_evictions sub_ok).map
          (fun ts2 =>
            (false, restore_gossip_if_synced ts2 mine.hash other_evictions mine.last_gossip)))
    ∧ ((∃ ts2, on_heartbeat_known_topic fuel ts mine other_evictions other_age sub_ok =
          some (true, ts2)) ↔
        (log2_floor mine.age > log2_floor other_age ∨
          (log2_floor mine.age = log2_floor other_age ∧ mine.evictions > other_evictions)))
    ∧ (schedule_gossip_asap mine).evictions = mine.evictions
    ∧ (0 < mine.last_gossip →
        (schedule_gossip_asap mine).last_gossip = if is_pinned mine.hash then 1 else 0) := by
  refine ⟨?_, ?_, ?_, schedule_gossip_asap_evictions mine, ?_⟩
  · intro hw
    simp only [on_heartbeat_known_topic, if_neg hdiff, if_pos hw]
  · intro hw
    simp only [on_heartbeat_known_topic, if_neg hdiff, if_neg hw]
    cases halloc : allocate_topic fuel ts { mine with age := max mine.age other_age }
        other_evictions sub_ok with
    | none => simp [halloc]
    | some ts2 => simp [halloc]
  · constructor
    · rintro ⟨ts2, hts2⟩
      by_contra hw
      simp only [on_heartbeat_known_topic, if_neg hdiff, if_neg hw] at hts2
      cases halloc : allocate_topic fuel ts { mine with age := max mine.age other_age }
          other_evictions sub_ok with
      | none => rw [halloc] at hts2; simp at hts2
      | some tsA => rw [halloc] at hts2; simp at hts2
    · intro hw
      refine ⟨{ schedule_gossip_asap mine with age := max mine.age other_age } :: ts, ?_⟩
      simp only [on_heartbeat_known_topic, if_neg hdiff, if_pos hw]
  · intro hpos
    unfold schedule_gossip_asap
    rw [if_pos hpos]

theorem on_heartbeat_divergence_rule_witness :
    on_heartbeat_known_topic 8 [] (cy_topic.mk 9000 2 100 5 false false) 5 10 true =
      some (true, [cy_topic.mk 9000 2 100 0 false false]) := by
  have h := (on_heartbeat_divergence_rule 8 [] (cy_topic.mk 9000 2 100 5 false false)
    5 10 true (by decide)).1 (by decide)
  rw [h]
  decide

-- ----------------------------------------  CLAIM C9  ----------------------------------------

/-- C9: when the local node loses a divergence and reallocates starting from the remote
eviction count, any resulting placement of this topic whose subject-ID matches the
remote one exactly has its previous last_gossip value restored, so no extra gossip is
scheduled. The fuel bound mirrors the loop bound asserted by the C code (iterations at
most topic_count, at most CY_TOPIC_SUBJECT_COUNT); local topic hashes are unique (spec
invariant 1). -/
theorem divergence_sync_restores_gossip (fuel : Nat) (ts : List cy_topic)
    (mine : cy_topic) (other_evictions other_age : Nat) (sub_ok : Bool)
    (ts3 : List cy_topic)
    (hfuel : fuel ≤ CY_TOPIC_SUBJECT_COUNT)
    (hts : ∀ v ∈ ts, v.hash ≠ mine.hash)
    (hrun : on_heartbeat_known_topic fuel ts mine other_evictions other_age sub_ok =
      some (false, ts3)) :
    ∀ t2 ∈ ts3, t2.hash = mine.hash →
      topic_get_subject_id t2.hash t2.evictions =
        topic_get_subject_id mine.hash other_evictions →
      t2.last_gossip = mine.last_gossip := by
  intro t2 ht2 hth hsid
  by_cases hdiff : mine.evictions = other_evictions
  · simp only [on_heartbeat_known_topic, if_pos hdiff] at hrun
    simp at hrun
  by_cases hw : log2_floor mine.age > log2_floor other_age ∨
      (log2_floor mine.age = log2_floor other_age ∧ mine.evictions > other_evictions)
  · simp only [on_heartbeat_known_topic, if_neg hdiff, if_pos hw] at hrun
    simp at hrun
  simp only [on_heartbeat_known_topic, if_neg hdiff, if_neg hw] at hrun
  cases halloc : allocate_topic fuel ts { mine with age := max mine.age other_age }
      other_evictions sub_ok with
  | none => rw [halloc] at hrun; simp at hrun
  | some ts2 =>
    rw [halloc] at hrun
    simp only [Option.some.injEq, Prod.mk.injEq, true_and] at hrun
    rw [← hrun] at ht2
    obtain ⟨u, hu, hueq⟩ := List.mem_map.mp ht2
    unfold allocate_topic at halloc
    have hts2 : ∀ v ∈ ts, v.hash ≠
        ({ { mine with age := max mine.age other_age } with subscribed := false } :
          cy_topic).hash := hts
    by_cases hcond : (u.hash == mine.hash && u.evictions == other_evictions) = true
    · rw [if_pos hcond] at hueq
      rw [← hueq]
    · rw [if_neg hcond] at hueq
      exfalso
      have huh : u.hash = mine.hash := by rw [hueq]; exact hth
      by_cases hpin : is_pinned mine.hash = true
      · have hexact := alloc_loop_pinned_exact fuel _ _ _ _ _ halloc hts2 hpin u hu huh
        exact hcond (by simp [huh, hexact])
      · have hb := alloc_loop_moved_fields fuel _ _ _ _ _ halloc hts2 u hu huh
        have he2 : t2.evictions = u.evictions := by rw [← hueq]
        rw [hth, he2] at hsid
        unfold topic_get_subject_id at hsid
        rw [if_neg hpin, if_neg hpin] at hsid
        have hlow : other_evictions ≤ u.evictions := hb.2.1
        have hhigh : u.evictions < other_evictions + fuel := hb.2.2
        simp only [CY_TOPIC_SUBJECT_COUNT] at hsid hfuel
        have heq : u.evictions = other_evictions := by omega
        exact hcond (by simp [huh, heq])

theorem divergence_sync_restores_gossip_witness :
    (cy_topic.mk 9000 2 100 55 false false).last_gossip = (55 : Int) :=
  divergence_sync_restores_gossip 8 [] (cy_topic.mk 9000 7 3 55 false false) 2 100 true
    [cy_topic.mk 9000 2 100 55 false false] (by decide) (by simp) (by decide)
    (cy_topic.mk 9000 2 100 55 false false) (by decide) (by decide) (by decide)

-- ----------------------------------------  RESPONSE FUTURES (cy.c)  ----------------------------------------

inductive cy_future_state
  | pending
  | success
  | failure
deriving DecidableEq

/-- The fields of struct cy_future_t relevant to the registry: state, owning topic
(identified by its hash), masked transfer-ID, response deadline. -/
structure cy_future where
  state : cy_future_state
  topic_hash : Nat
  transfer_id_masked : Nat
  deadline : Int
deriving DecidableEq

/-- The publisher-side fields of a topic used by cy_publish. -/
structure pub_topic where
  hash : Nat
  pub_transfer_id : Nat
deriving DecidableEq

/-- Future-registry state: topics, the user-owned future storage addressed by future id,
the union of all per-topic transfer-ID indices (a future belongs to the index of its own
topic, recorded in its topic_hash field), and the global deadline index in insertion
order (the C comparator sends equal deadlines right, so the AVL minimum is the earliest
inserted among minimal deadlines). -/
structure cy_futures_state where
  topics : List pub_topic
  futures : Nat → cy_future
  tid_index : List Nat
  deadline_index : List Nat

/-- Pointwise store update for the future storage. -/
def fstore_set (f : Nat → cy_future) (i : Nat) (v : cy_future) : Nat → cy_future :=
  fun g => if g = i then v else f g

/-- The pub_transfer_id increment at the end of cy_publish. -/
def bump_transfer_id (st : cy_futures_state) (th : Nat) : cy_futures_state :=
  { st with topics := st.topics.map (fun q =>
      if q.hash == th then { q with pub_transfer_id := q.pub_transfer_id + 1 } else q) }

/-- Embedding of cy_publish from cy.c (registry effects). The transport outcome is the
oracle transport_res (non-negative means success). Returns the new state, the result
code, and whether the transport publish hook was called. User callback and payload
mechanics are outside the registry and not modelled. -/
def cy_publish_model (st : cy_futures_state) (th : Nat) (fid? : Option Nat)
    (response_deadline : Int) (transfer_id_mask : Nat) (transport_res : Int) :
    cy_futures_state × Int × Bool :=
  match st.topics.find? (fun tp => tp.hash == th) with
  | none => (st, -1, false)
  | some tp =>
    match fid? with
    | none => (bump_transfer_id st th, transport_res, true)
    | some fid =>
      let m := tp.pub_transfer_id &&& transfer_id_mask
      let newfut : cy_future := ⟨cy_future_state.pending, th, m, response_deadline⟩
      let st1 := { st with futures := fstore_set st.futures fid newfut }
      if st.tid_index.any (fun g => (st.futures g).topic_hash == th &&
          (st.futures g).transfer_id_masked == m) then
        (st1, -12345, false)
      else
        let st2 := { st1 with tid_index := fid :: st1.tid_index }
        if transport_res ≥ 0 then
          (bump_transfer_id { st2 with deadline_index := st2.deadline_index ++ [fid] } th,
            transport_res, true)
        else
          (bump_transfer_id { st2 with tid_index := st2.tid_index.erase fid } th,
            transport_res, true)

/-- The cavl2_min of the deadline index: the earliest-inserted future among those with
the minimal deadline (ties go to the earlier element, as in the C comparator). -/
def min_deadline_fid (futures : Nat → cy_future) : List Nat → Option Nat
  | [] => none
  | f :: rest =>
    match min_deadline_fid futures rest with
    | none => some f
    | some g => if (futures g).deadline < (futures f).deadline then some g else some f

/-- Embedding of retire_timed_out_futures from cy.c: repeatedly take the minimum of the
deadline index while its deadline has passed; remove it from both indices and mark it
failed. The user callback is external to the registry and not modelled. Fuel is the
index length; each step removes one element. -/
def retire_loop : Nat → cy_futures_state → Int → cy_futures_state
  | 0, st, _ => st
  | fuel + 1, st, now =>
    match min_deadline_fid st.futures st.deadline_index with
    | none => st
    | some fid =>
      if (st.futures fid).deadline < now then
        retire_loop fuel
          { st with
            deadline_index := st.deadline_index.erase fid,
            tid_index := st.tid_index.erase fid,
            futures := fstore_set st.futures fid
              { st.futures fid with state := cy_future_state.failure } } now
      else st

def retire_timed_out_futures (st : cy_futures_state) (now : Int) : cy_futures_state :=
  retire_loop st.deadline_index.length st now

/-- Embedding of cy_ingest_topic_response_transfer from cy.c (registry effects): find the
topic by the hash carried in the payload head, find the pending future by masked
transfer-ID, mark it successful, and remove it from both indices. Malformed or unknown
responses only release the payload. -/
def cy_ingest_topic_response_model (st : cy_futures_state) (th transfer_id : Nat)
    (transfer_id_mask : Nat) : cy_futures_state :=
  match st.topics.find? (fun tp => tp.hash == th) with
  | none => st
  | some _ =>
    let m := transfer_id &&& transfer_id_mask
    match st.tid_index.find? (fun g => (st.futures g).topic_hash == th &&
        (st.futures g).transfer_id_masked == m) with
    | none => st
    | some fid =>
      { st with
        futures := fstore_set st.futures fid
          { st.futures fid with state := cy_future_state.success },
        deadline_index := st.deadline_index.erase fid,
        tid_index := st.tid_index.erase fid }

/-- The four public operations of the claim, as they act on the future registry.
cy_update first retires timed-out futures and touches no future afterwards;
cy_ingest_topic_transfer never touches futures. -/
inductive fut_op
  | publish (th : Nat) (fid? : Option Nat) (response_deadline : Int) (transport_res : Int)
  | update (now : Int)
  | ingest_response (th transfer_id : Nat)
  | ingest_topic

def fut_step (transfer_id_mask : Nat) (st : cy_futures_state) : fut_op → cy_futures_state
  | .publish th fid? dl res => (cy_publish_model st th fid? dl transfer_id_mask res).1
  | .update now => retire_timed_out_futures st now
  | .ingest_response th tid => cy_ingest_topic_response_model st th tid transfer_id_mask
  | .ingest_topic => st

/-- Well-formedness of an operation: a future handed to cy_publish must be a fresh
record, not currently registered (the C API forbids touching a pending future). -/
def fut_op_wf (st : cy_futures_state) : fut_op → Prop
  | .publish _ (some fid) _ _ => fid ∉ st.tid_index ∧ fid ∉ st.deadline_index
  | _ => True

/-- The amended registry invariant: a future id is in the global deadline index iff it is
in the transfer-ID index, every indexed future is pending, and the indices hold no
duplicates. -/
def futures_inv (st : cy_futures_state) : Prop :=
  (∀ fid, fid ∈ st.deadline_index ↔ fid ∈ st.tid_index) ∧
  (∀ fid ∈ st.deadline_index, (st.futures fid).state = cy_future_state.pending) ∧
  st.deadline_index.Nodup ∧ st.tid_index.Nodup

-- ----------------------------------------  CLAIM C5  ----------------------------------------

/-- C5: cy_publish with a future first registers the future in the transfer-ID index of
its topic: if the masked transfer-ID is already in flight it returns an error without
calling the transport publish and without touching the indices; otherwise it calls the
transport and, on success, the future is pending in both indices, while on failure the
registration is rolled back and the future is in neither index. -/
theorem cy_publish_future_protocol (st : cy_futures_state) (th fid : Nat)
    (dl : Int) (mask : Nat) (tres : Int) (tp : pub_topic)
    (hfind : st.topics.find? (fun q => q.hash == th) = some tp)
    (hfresh1 : fid ∉ st.tid_index) (hfresh2 : fid ∉ st.deadline_index) :
    ((st.tid_index.any (fun g =>
        (st.futures g).topic_hash == th &&
        (st.futures g).transfer_id_masked == (tp.pub_transfer_id &&& mask)) = true) →
      (cy_publish_model st th (some fid) dl mask tres).2.1 = -12345 ∧
      (cy_publish_model st th (some fid) dl mask tres).2.2 = false ∧
      (cy_publish_model st th (some fid) dl mask tres).1.tid_index = st.tid_index ∧
      (cy_publish_model st th (some fid) dl mask tres).1.deadline_index =
        st.deadline_index)
    ∧ ((st.tid_index.any (fun g =>
        (st.futures g).topic_hash == th &&
        (st.futures g).transfer_id_masked == (tp.pub_transfer_id &&& mask)) = false) →
      (cy_publish_model st th (some fid) dl mask tres).2.2 = true ∧
      (cy_publish_model st th (some fid) dl mask tres).2.1 = tres ∧
      (0 ≤ tres →
        fid ∈ (cy_publish_model st th (some fid) dl mask tres).1.tid_index ∧
        fid ∈ (cy_publish_model st th (some fid) dl mask tres).1.deadline_index ∧
        ((cy_publish_model st th (some fid) dl mask tres).1.futures fid).state =
          cy_future_state.pending) ∧
      (tres < 0 →
        fid ∉ (cy_publish_model st th (some fid) dl mask tres).1.tid_index ∧
        fid ∉ (cy_publish_model st th (some fid) dl mask tres).1.deadline_index)) := by
  constructor
  · intro hdup
    simp only [cy_publish_model, hfind, hdup, if_true]
    exact ⟨trivial, trivial, trivial, trivial⟩
  · intro hdup
    simp only [cy_publish_model, hfind, hdup, Bool.false_eq_true, if_false]
    refine ⟨?_, ?_, ?_, ?_⟩
    · by_cases hres : tres ≥ 0 <;> simp [hres]
    · by_cases hres : tres ≥ 0 <;> simp [hres]
    · intro hres
      rw [if_pos (by omega : tres ≥ 0)]
      refine ⟨List.mem_cons_self _ _, ?_, ?_⟩
      · simp [bump_transfer_id]
      · simp [bump_transfer_id, fstore_set]
    · intro hres
      rw [if_neg (by omega : ¬(tres ≥ 0))]
      constructor
      · simp only [bump_transfer_id]
        rw [List.erase_cons_head]
        exact hfresh1
      · exact hfresh2

theorem cy_publish_future_protocol_witness :
    (cy_publish_model
        ⟨[⟨77, 5⟩], fun _ => ⟨cy_future_state.failure, 0, 0, 0⟩, [], []⟩
        77 (some 0) 1000 31 0).2.2 = true ∧
    0 ∈ (cy_publish_model
        ⟨[⟨77, 5⟩], fun _ => ⟨cy_future_state.failure, 0, 0, 0⟩, [], []⟩
        77 (some 0) 1000 31 0).1.tid_index ∧
    0 ∈ (cy_publish_model
        ⟨[⟨77, 5⟩], fun _ => ⟨cy_future_state.failure, 0, 0, 0⟩, [], []⟩
        77 (some 0) 1000 31 0).1.deadline_index ∧
    ((cy_publish_model
        ⟨[⟨77, 5⟩], fun _ => ⟨cy_future_state.failure, 0, 0, 0⟩, [], []⟩
        77 (some 0) 1000 31 0).1.futures 0).state = cy_future_state.pending := by
  have h := (cy_publish_future_protocol
    ⟨[⟨77, 5⟩], fun _ => ⟨cy_future_state.failure, 0, 0, 0⟩, [], []⟩
    77 0 1000 31 0 ⟨77, 5⟩ (by decide) (by simp) (by simp)).2 (by decide)
  exact ⟨h.1, (h.2.2.1 (by decide)).1, (h.2.2.1 (by decide)).2.1,
    (h.2.2.1 (by decide)).2.2⟩

-- ----------------------------------------  FUTURE INVARIANT LEMMAS  ----------------------------------------

theorem min_deadline_fid_mem (futures : Nat → cy_future) :
    ∀ (l : List Nat) (fid : Nat), min_deadline_fid futures l = some fid → fid ∈ l := by
  intro l
  induction l with
  | nil => intro fid h; simp [min_deadline_fid] at h
  | cons f rest ih =>
    intro fid h
    cases hrec : min_deadline_fid futures rest with
    | none =>
      simp only [min_deadline_fid, hrec, Option.some.injEq] at h
      rw [← h]
      exact List.mem_cons_self _ _
    | some g =>
      simp only [min_deadline_fid, hrec] at h
      by_cases hlt : (futures g).deadline < (futures f).deadline
      · rw [if_pos hlt] at h
        simp only [Option.some.injEq] at h
        rw [← h]
        exact List.mem_cons_of_mem _ (ih g hrec)
      · rw [if_neg hlt] at h
        simp only [Option.some.injEq] at h
        rw [← h]
        exact List.mem_cons_self _ _

theorem futures_inv_erase_both (st : cy_futures_state) (fid : Nat) (v : cy_future)
    (hinv : futures_inv st) :
    futures_inv
      { st with
        deadline_index := st.deadline_index.erase fid,
        tid_index := st.tid_index.erase fid,
        futures := fstore_set st.futures fid v } := by
  obtain ⟨hiff, hpend, hnd, hnt⟩ := hinv
  refine ⟨?_, ?_, hnd.erase fid, hnt.erase fid⟩
  · intro g
    rw [hnd.mem_erase_iff, hnt.mem_erase_iff, hiff g]
  · intro g hg
    rw [hnd.mem_erase_iff] at hg
    show (fstore_set st.futures fid v g).state = cy_future_state.pending
    unfold fstore_set
    rw [if_neg hg.1]
    exact hpend g hg.2

theorem retire_loop_inv (fuel : Nat) :
    ∀ (st : cy_futures_state) (now : Int),
      futures_inv st → futures_inv (retire_loop fuel st now) := by
  induction fuel with
  | zero => intro st now hinv; exact hinv
  | succ n ih =>
    intro st now hinv
    cases hmin : min_deadline_fid st.futures st.deadline_index with
    | none => simp only [retire_loop, hmin]; exact hinv
    | some fid =>
      simp only [retire_loop, hmin]
      by_cases hdl : (st.futures fid).deadline < now
      · rw [if_pos hdl]
        exact ih _ now (futures_inv_erase_both st fid _ hinv)
      · rw [if_neg hdl]
        exact hinv

-- ----------------------------------------  CLAIM C4  ----------------------------------------

/-- C4 counterexample: a future submitted through cy_publish whose transport publish
failed is left in state pending yet sits in neither the deadline index nor the
transfer-ID index, so being pending is not equivalent to being indexed. -/
theorem future_pending_outside_indices :
    ((cy_publish_model
        ⟨[⟨77, 5⟩], fun _ => ⟨cy_future_state.failure, 0, 0, 0⟩, [], []⟩
        77 (some 0) 1000 31 (-1)).1.futures 0).state = cy_future_state.pending ∧
    0 ∉ (cy_publish_model
        ⟨[⟨77, 5⟩], fun _ => ⟨cy_future_state.failure, 0, 0, 0⟩, [], []⟩
        77 (some 0) 1000 31 (-1)).1.deadline_index ∧
    0 ∉ (cy_publish_model
        ⟨[⟨77, 5⟩], fun _ => ⟨cy_future_state.failure, 0, 0, 0⟩, [], []⟩
        77 (some 0) 1000 31 (-1)).1.tid_index ∧
    (cy_publish_model
        ⟨[⟨77, 5⟩], fun _ => ⟨cy_future_state.failure, 0, 0, 0⟩, [], []⟩
        77 (some 0) 1000 31 (-1)).2.1 < 0 := by
  refine ⟨rfl, by decide, by decide, by decide⟩

/-- C4 amended: after every public operation, a future id is in the global deadline index
iff it is in the transfer-ID index, every indexed future is pending, and the indices are
duplicate-free; a future whose publish attempt returned an error is left pending but
unindexed. Publish requires a fresh future record, as the C API does. -/
theorem futures_invariant_preserved (mask : Nat) (st : cy_futures_state) (op : fut_op)
    (hinv : futures_inv st) (hwf : fut_op_wf st op) :
    futures_inv (fut_step mask st op) := by
  obtain ⟨hiff, hpend, hnd, hnt⟩ := hinv
  cases op with
  | publish th fid? dl tres =>
    simp only [fut_step]
    cases hfind : st.topics.find? (fun tp => tp.hash == th) with
    | none => simp only [cy_publish_model, hfind]; exact ⟨hiff, hpend, hnd, hnt⟩
    | some tp =>
      cases fid? with
      | none =>
        simp only [cy_publish_model, hfind]
        exact ⟨hiff, hpend, hnd, hnt⟩
      | some fid =>
        obtain ⟨hf1, hf2⟩ := hwf
        simp only [cy_publish_model, hfind]
        by_cases hdup : st.tid_index.any (fun g =>
            (st.futures g).topic_hash == th &&
            (st.futures g).transfer_id_masked ==
              (tp.pub_transfer_id &&& mask)) = true
        · rw [if_pos hdup]
          refine ⟨hiff, ?_, hnd, hnt⟩
          intro g hg
          have hgne : g ≠ fid := fun h => hf2 (h ▸ hg)
          show (fstore_set st.futures fid _ g).state = _
          unfold fstore_set
          rw [if_neg hgne]
          exact hpend g hg
        · rw [if_neg hdup]
          by_cases hres : tres ≥ 0
          · rw [if_pos hres]
            refine ⟨?_, ?_, ?_, ?_⟩
            · intro g
              show g ∈ st.deadline_index ++ [fid] ↔ g ∈ fid :: st.tid_index
              simp only [List.mem_append, List.mem_singleton, List.mem_cons]
              rw [hiff g]
              tauto
            · intro g hg
              show (fstore_set st.futures fid _ g).state = _
              unfold fstore_set
              by_cases hgf : g = fid
              · rw [if_pos hgf]
              · rw [if_neg hgf]
                have hg2 : g ∈ st.deadline_index := by
                  have : g ∈ st.deadline_index ++ [fid] := hg
                  simp only [List.mem_append, List.mem_singleton] at this
                  tauto
                exact hpend g hg2
            · show (st.deadline_index ++ [fid]).Nodup
              simp [List.nodup_append, hnd, hf2]
            · show (fid :: st.tid_index).Nodup
              exact List.nodup_cons.mpr ⟨hf1, hnt⟩
          · rw [if_neg hres]
            refine ⟨?_, ?_, hnd, ?_⟩
            · intro g
              show g ∈ st.deadline_index ↔ g ∈ (fid :: st.tid_index).erase fid
              rw [List.erase_cons_head]
              exact hiff g
            · intro g hg
              have hgne : g ≠ fid := fun h => hf2 (h ▸ hg)
              show (fstore_set st.futures fid _ g).state = _
              unfold fstore_set
              rw [if_neg hgne]
              exact hpend g hg
            · show ((fid :: st.tid_index).erase fid).Nodup
              rw [List.erase_cons_head]
              exact hnt
  | update now =>
    exact retire_loop_inv _ st now ⟨hiff, hpend, hnd, hnt⟩
  | ingest_response th tid =>
    simp only [fut_step, cy_ingest_topic_response_model]
    cases hfind : st.topics.find? (fun tp => tp.hash == th) with
    | none => exact ⟨hiff, hpend, hnd, hnt⟩
    | some tp =>
      cases hfind2 : st.tid_index.find? (fun g =>
          (st.futures g).topic_hash == th &&
          (st.futures g).transfer_id_masked == (tid &&& mask)) with
      | none => exact ⟨hiff, hpend, hnd, hnt⟩
      | some fid => exact futures_inv_erase_both st fid _ ⟨hiff, hpend, hnd, hnt⟩
  | ingest_topic =>
    exact ⟨hiff, hpend, hnd, hnt⟩

theorem futures_invariant_preserved_witness :
    futures_inv
      (fut_step 31
        (⟨[⟨77, 5⟩], fun _ => ⟨cy_future_state.failure, 0, 0, 0⟩, [], []⟩ :
          cy_futures_state)
        (fut_op.publish 77 (some 0) 1000 0)) :=
  futures_invariant_preserved 31
    ⟨[⟨77, 5⟩], fun _ => ⟨cy_future_state.failure, 0, 0, 0⟩, [], []⟩
    (fut_op.publish 77 (some 0) 1000 0)
    ⟨fun g => by simp, fun g hg => by simp at hg, List.nodup_nil, List.nodup_nil⟩
    ⟨by simp, by simp⟩

-- ----------------------------------------  TOPIC TRANSFER INGEST (cy.c)  ----------------------------------------

/-- A received transfer: sender node-ID and an opaque payload identity. -/
structure transfer_rec where
  remote_node_id : Nat
  payload : Nat
deriving DecidableEq

/-- The state read and written by cy_ingest_topic_transfer: the node Bloom filter and
node-ID (for mark_neighbor), the heartbeat deadline, the topic age, the subscription
list (by subscriber id), the stored last-received transfer, plus observation logs of
payloads released through the buffer_release hook and of invoked subscription
callbacks. -/
structure ingest_state where
  bloom : cy_bloom64
  node_id : Nat
  node_id_max : Nat
  heartbeat_next : Int
  topic_age : Nat
  sub_list : List Nat
  sub_last_transfer : Option transfer_rec
  released : List Nat
  callbacks_invoked : List Nat

/-- Embedding of mark_neighbor from cy.c: purge the Bloom filter when congested beyond
31/32 of capacity, apply the CSMA/CD heartbeat back-off when anonymous and the remote is
new, then record the remote node-ID. The random draw is the oracle r. -/
def mark_neighbor (bloom : cy_bloom64) (node_id node_id_max : Nat)
    (heartbeat_next : Int) (r remote : Nat) : cy_bloom64 × Int :=
  let bloom1 := if bloom.popcount > bloom.n_bits * 31 / 32 then bloom64_purge bloom
    else bloom
  let hb := if node_id > node_id_max ∧ bloom64_get bloom1 remote = false then
      heartbeat_next + (random_uint r 0 2000000 : Int)
    else heartbeat_next
  (bloom64_set bloom1 remote, hb)

/-- Embedding of cy_ingest_topic_transfer from cy.c: mark the neighbor, age the topic,
then either release the payload when no subscription is live, or store the transfer
(releasing the previous one) and invoke every subscription callback. -/
def cy_ingest_topic_transfer (st : ingest_state) (tr : transfer_rec) (r : Nat) :
    ingest_state :=
  let mn := mark_neighbor st.bloom st.node_id st.node_id_max st.heartbeat_next r
    tr.remote_node_id
  let st1 :=
    { st with
      bloom := mn.1
      heartbeat_next := mn.2
      topic_age := st.topic_age + 1 }
  if st.sub_list = [] then
    { st1 with released := tr.payload :: st.released }
  else
    let rel : List Nat :=
      match st.sub_last_transfer with
      | some old => old.payload :: st.released
      | none => st.released
    { st1 with
      sub_last_transfer := some tr,
      released := rel,
      callbacks_invoked := st.callbacks_invoked ++ st.sub_list }

-- ----------------------------------------  CLAIM C10  ----------------------------------------

theorem bloom64_get_set_self (bloom : cy_bloom64) (v : Nat)
    (hn : 0 < bloom.n_bits) (hw : bloom.n_bits ≤ 64 * bloom.storage.length) :
    bloom64_get (bloom64_set bloom v) v = true := by
  have hidx : v % bloom.n_bits < bloom.n_bits := Nat.mod_lt _ hn
  have hword : v % bloom.n_bits / 64 < bloom.storage.length := by
    rw [Nat.div_lt_iff_lt_mul (by norm_num : (0 : Nat) < 64)]
    omega
  unfold bloom64_set
  by_cases hbit : (bloom.storage.getD (v % bloom.n_bits / 64) 0).testBit
      (v % bloom.n_bits % 64) = true
  · rw [if_pos hbit]
    exact hbit
  · rw [if_neg hbit]
    unfold bloom64_get
    simp only
    have hget : (bloom.storage.set (v % bloom.n_bits / 64)
        ((bloom.storage.getD (v % bloom.n_bits / 64) 0) |||
          2 ^ (v % bloom.n_bits % 64))).getD (v % bloom.n_bits / 64) 0 =
        (bloom.storage.getD (v % bloom.n_bits / 64) 0) |||
          2 ^ (v % bloom.n_bits % 64) := by
      rw [List.getD_eq_getElem?_getD, List.getElem?_set_self (by simpa using hword)]
      rfl
    rw [hget, Nat.testBit_or]
    simp [Nat.testBit_two_pow_self]

/-- C10: ingesting a transfer on a topic with an empty subscription list releases the
payload through the buffer_release hook, invokes no subscription callback, and leaves
the stored last-received transfer unchanged, while the topic age is still incremented
and the sender node-ID is still recorded in the Bloom filter. -/
theorem ingest_empty_sub_list (st : ingest_state) (tr : transfer_rec) (r : Nat)
    (hsub : st.sub_list = [])
    (hn : 0 < st.bloom.n_bits)
    (hw : st.bloom.n_bits ≤ 64 * st.bloom.storage.length) :
    (cy_ingest_topic_transfer st tr r).released = tr.payload :: st.released ∧
    (cy_ingest_topic_transfer st tr r).callbacks_invoked = st.callbacks_invoked ∧
    (cy_ingest_topic_transfer st tr r).sub_last_transfer = st.sub_last_transfer ∧
    (cy_ingest_topic_transfer st tr r).topic_age = st.topic_age + 1 ∧
    bloom64_get (cy_ingest_topic_transfer st tr r).bloom tr.remote_node_id = true := by
  simp only [cy_ingest_topic_transfer]
  rw [if_pos hsub]
  refine ⟨rfl, rfl, rfl, rfl, ?_⟩
  show bloom64_get (mark_neighbor st.bloom st.node_id st.node_id_max st.heartbeat_next r
    tr.remote_node_id).1 tr.remote_node_id = true
  unfold mark_neighbor
  by_cases hcong : st.bloom.popcount > st.bloom.n_bits * 31 / 32
  · rw [if_pos hcong]
    exact bloom64_get_set_self _ _ (by simpa [bloom64_purge] using hn)
      (by simpa [bloom64_purge] using hw)
  · rw [if_neg hcong]
    exact bloom64_get_set_self _ _ hn hw

theorem ingest_empty_sub_list_witness :
    (cy_ingest_topic_transfer
        ⟨⟨64, [0], 0⟩, 5, 100, 0, 3, [], none, [], []⟩ ⟨7, 99⟩ 0).released = [99] ∧
    bloom64_get (cy_ingest_topic_transfer
        ⟨⟨64, [0], 0⟩, 5, 100, 0, 3, [], none, [], []⟩ ⟨7, 99⟩ 0).bloom 7 = true := by
  have h := ingest_empty_sub_list ⟨⟨64, [0], 0⟩, 5, 100, 0, 3, [], none, [], []⟩ ⟨7, 99⟩ 0
    rfl (by decide) (by decide)
  exact ⟨h.1, h.2.2.2.2⟩
